import Mathlib

/-!
Shallow embedding of the `hato` heterogeneous arena (the code the `hato!`
macro expands to, at index width `wi` and offset width `wo` bits; the crate's
default instantiation is `wi = wo = 32`, i.e. `u32` indices and offsets).

Machine integers are modelled as `Nat` with the width bounds applied exactly
where the code converts (`try_from` succeeds iff the value is `< 2 ^ w`).
Pointers (the vtable pointer of a trait object) are modelled as `Nat` tokens:
two values have the same shape iff they carry the same vtable token.  A panic
is modelled as an `Except.error` carrying which of the source's distinct
panic sites fired.  Byte buffers are lists of bytes; addresses, capacity and
reallocation are below this abstraction (a handle stores an offset, not an
address, which is exactly why it survives reallocation).
-/

namespace Hato

/-- A value handed to `push`: its vtable pointer for the trait `Interface`
(shapes are identified at runtime by this pointer), its type's
`align_of::<T>()`, and its byte representation (`as_slice_of_bytes` from the
`unscrupulous` crate yields exactly `size_of::<T>()` bytes, so the type's size
is `bytes.length`). -/
structure Value where
  vtable : Nat
  align : Nat
  bytes : List Nat
deriving DecidableEq

/-- `struct Arena { vtable: *const u8, bytes: AVec<u8>, slots: Vec<$offset> }`.
The `AVec` is modelled as the list of its bytes plus the base alignment it was
created with; `slots` is a Rust `Vec`, pushed and popped at its tail. -/
structure Arena where
  vtable : Nat
  bytes : List Nat
  slots : List Nat
  align : Nat
deriving DecidableEq

/-- `pub struct Arenas(Vec<Arena>)`, the heterogeneous container. -/
structure Arenas where
  val : List Arena
deriving DecidableEq

/-- `pub struct Handle { index: $index, offset: $offset }`. -/
structure Handle where
  index : Nat
  offset : Nat
deriving DecidableEq

/-- The distinct panic sites a `push` can hit:
`indexOverflow` is `panic!("got more than ... arenas")` in `Arenas::push`,
`offsetOverflow` is `.expect("individual arenas to hold less than 4GB of
data")` in `Arena::push`, and `copyFault` is the slice/`copy_from_slice`
panic on the slot-reuse path of `Arena::push`. -/
inductive PushError where
  | indexOverflow
  | offsetOverflow
  | copyFault
deriving DecidableEq

/-- `extract_vtable_pointer`: the second word of the value's fat pointer. -/
def extract_vtable_pointer (v : Value) : Nat := v.vtable

/-- `Arena::new::<T>(vtable)`: an empty buffer whose base alignment is
`align_of::<T>()`, an empty free-slot list, and the given vtable pointer. -/
def Arena.new (vtable alignment : Nat) : Arena :=
  { vtable := vtable, bytes := [], slots := [], align := alignment }

/-- `Arena::is_not_full`, verbatim `u32::try_from(self.bytes.len()).is_ok()`:
the source hard-codes `u32` at this one site, even when the macro is
instantiated at another `$offset` type. -/
def Arena.is_not_full (a : Arena) : Bool :=
  a.bytes.length < 2 ^ 32

/-- Overwrite the byte range starting at `off` with `r`, leaving everything
else in place (the effect of a successful `copy_from_slice`). -/
def overwriteAt (l : List Nat) (off : Nat) (r : List Nat) : List Nat :=
  l.take off ++ r ++ l.drop (off + r.length)

/-- `Arena::push::<T>` at offset width `wo`.  On the slot-reuse path the
source copies into `self.bytes[offset .. offset + align_of::<T>()]`: the
slicing panics when the range exceeds the buffer, and `copy_from_slice`
panics when the destination length `align_of::<T>()` differs from the source
slice length `size_of::<T>()`; only when `size_of = align_of` are the value's
bytes written.  On the append path, `<$offset>::try_from(self.bytes.len())`
is taken of the pre-append length, which becomes the returned offset.
`core::mem::forget(x)` suppresses the value's destructor; the model is pure,
so there is no destructor effect to suppress. -/
def Arena.push (wo : Nat) (a : Arena) (v : Value) : Except PushError (Nat × Arena) :=
  match a.slots.getLast? with
  | some offset =>
      if offset + v.align ≤ a.bytes.length ∧ v.bytes.length = v.align then
        .ok (offset, { a with bytes := overwriteAt a.bytes offset v.bytes,
                              slots := a.slots.dropLast })
      else
        .error .copyFault
  | none =>
      if a.bytes.length < 2 ^ wo then
        .ok (a.bytes.length, { a with bytes := a.bytes ++ v.bytes })
      else
        .error .offsetOverflow

/-- The observable behaviour of the trait object `Arena::get`/`get_mut`
return: the fat pointer pairs `self.bytes.as_ptr() + offset` with
`self.vtable`, and using it through the interface dispatches over the `sz`
bytes stored at `offset` (for the stored type, `sz = size_of::<T>()`) and the
vtable pointer.  The model returns that pair of observations. -/
def Arena.get (a : Arena) (offset sz : Nat) : List Nat × Nat :=
  ((a.bytes.drop offset).take sz, a.vtable)

/-- `Arena::remove`: `self.slots.push(offset)` appends at the `Vec`'s tail. -/
def Arena.remove (a : Arena) (offset : Nat) : Arena :=
  { a with slots := a.slots ++ [offset] }

/-- `Arenas::push` at index width `wi` and offset width `wo`.
`self.0.iter().position(..)` finds the first arena with this vtable that is
not full; otherwise a fresh arena is appended and `index_as_usize` is
`self.0.len() - 1` after the append.  `<$index>::try_from(index_as_usize)`
panics when the arena count overflows the index type; then the insertion is
delegated to `self.0[index_as_usize]`.  In the `some` branch the chosen index
is in bounds, so the `getD` default is never read. -/
def Arenas.push (wi wo : Nat) (A : Arenas) (x : Value) : Except PushError (Handle × Arenas) :=
  match A.val.findIdx? (fun arena => arena.vtable == extract_vtable_pointer x && arena.is_not_full) with
  | some index_as_usize =>
      if index_as_usize < 2 ^ wi then
        match Arena.push wo (A.val.getD index_as_usize (Arena.new (extract_vtable_pointer x) x.align)) x with
        | .ok (offset, arena) => .ok (⟨index_as_usize, offset⟩, ⟨A.val.set index_as_usize arena⟩)
        | .error e => .error e
      else
        .error .indexOverflow
  | none =>
      if A.val.length < 2 ^ wi then
        match Arena.push wo (Arena.new (extract_vtable_pointer x) x.align) x with
        | .ok (offset, arena) => .ok (⟨A.val.length, offset⟩, ⟨A.val ++ [arena]⟩)
        | .error e => .error e
      else
        .error .indexOverflow

/-- `Arenas::get`: `self.0[handle.index as usize].get(handle.offset)`; the
`Vec` indexing panics out of bounds, modelled by `none`. -/
def Arenas.get (A : Arenas) (h : Handle) (sz : Nat) : Option (List Nat × Nat) :=
  (A.val[h.index]?).map (fun a => a.get h.offset sz)

/-- `Arenas::remove`: `self.0[handle.index as usize].remove(handle.offset)`. -/
def Arenas.remove (A : Arenas) (h : Handle) : Option Arenas :=
  (A.val[h.index]?).map (fun a => ⟨A.val.set h.index (a.remove h.offset)⟩)

/-- `#[derive(Clone)]` on `Arena`: field-wise clone; the `AVec<u8>` and
`Vec<$offset>` clones copy their elements one by one (a byte's clone is the
byte itself), and the raw vtable pointer is copied as an opaque value. -/
def Arena.clone (a : Arena) : Arena :=
  { vtable := a.vtable, bytes := a.bytes.map id, slots := a.slots.map id,
    align := a.align }

/-- `#[derive(Clone)]` on `Arenas`: the `Vec<Arena>` clones element-wise. -/
def Arenas.clone (A : Arenas) : Arenas :=
  ⟨A.val.map Arena.clone⟩

/-- The comparator `#[derive(Ord, PartialOrd)]` generates for `Handle`:
compare the fields in declaration order, `index` first, `offset` on ties. -/
def Handle.cmp (h1 h2 : Handle) : Ordering :=
  match compare h1.index h2.index with
  | .eq => compare h1.offset h2.offset
  | o => o

/-- A sequence of `Arenas::push` calls, stopping at the first panic and
returning the final state together with the issued handles in order. -/
def Arenas.pushAll (wi wo : Nat) (A : Arenas) : List Value → Except PushError (Arenas × List Handle)
  | [] => .ok (A, [])
  | v :: vs =>
    match A.push wi wo v with
    | .ok (h, A1) =>
      match A1.pushAll wi wo vs with
      | .ok (A2, hs) => .ok (A2, h :: hs)
      | .error e => .error e
    | .error e => .error e

/-- The `index_as_usize` that `Arenas::push` computes for `x`: the position of
the first arena of `x`'s shape that is not full, or the index of the freshly
appended arena. -/
def Arenas.chosenIndex (A : Arenas) (x : Value) : Nat :=
  match A.val.findIdx? (fun arena => arena.vtable == extract_vtable_pointer x && arena.is_not_full) with
  | some i => i
  | none => A.val.length

/-! ## State predicates -/

/-- Handle `h` currently stores value `v`: the handle's index denotes an arena
whose vtable is `v`'s, and the byte range `[offset, offset + size)` lies
inside the buffer and holds exactly `v`'s bytes. -/
def Tracks (A : Arenas) (h : Handle) (v : Value) : Prop :=
  ∃ a : Arena, A.val[h.index]? = some a ∧
    h.offset + v.bytes.length ≤ a.bytes.length ∧
    (a.bytes.drop h.offset).take v.bytes.length = v.bytes ∧
    a.vtable = v.vtable

/-- No slot has ever been freed: every arena's free-slot list is empty. -/
def NoSlots (A : Arenas) : Prop :=
  ∀ (i : Nat) (a : Arena), A.val[i]? = some a → a.slots = []

/-- Arena `a`'s byte buffer is exactly the concatenation of the byte images
of a list of values satisfying `P`, all of which carry `a`'s vtable. -/
def BufferFrom (P : Value → Prop) (a : Arena) : Prop :=
  ∃ ws : List Value, (∀ w ∈ ws, P w ∧ w.vtable = a.vtable) ∧
    a.bytes = (ws.map Value.bytes).flatten

/-! ## Helper lemmas -/

/-- `findIdx?` started at `s` answers an absolute position at least `s`, and
the element there satisfies the predicate. -/
theorem findIdx?_some_mem {α : Type} {p : α → Bool} :
    ∀ (l : List α), ∀ {s i : Nat}, List.findIdx? p l s = some i →
      s ≤ i ∧ ∃ a, l[i - s]? = some a ∧ p a = true := by
  intro l
  induction l with
  | nil => intro s i h; simp [List.findIdx?] at h
  | cons x xs ih =>
    intro s i h
    rw [List.findIdx?_cons] at h
    by_cases hp : p x = true
    · rw [if_pos hp] at h
      injection h with h
      subst h
      exact ⟨Nat.le_refl _, x, by simp, hp⟩
    · rw [if_neg hp] at h
      obtain ⟨hs, a, ha, hpa⟩ := ih h
      refine ⟨by omega, a, ?_, hpa⟩
      have hi : i - s = (i - (s + 1)) + 1 := by omega
      rw [hi, List.getElem?_cons_succ]
      exact ha

/-- The element at the index `findIdx?` returns satisfies the predicate. -/
theorem findIdx?_found {α : Type} {p : α → Bool} {l : List α} {i : Nat}
    (h : List.findIdx? p l = some i) : ∃ a, l[i]? = some a ∧ p a = true := by
  obtain ⟨-, a, ha, hpa⟩ := findIdx?_some_mem l h
  exact ⟨a, by simpa using ha, hpa⟩

/-- Extracting a range that lies inside `l` is unaffected by appending. -/
theorem extract_append {α : Type} {l s : List α} {off n : Nat}
    (h : off + n ≤ l.length) :
    ((l ++ s).drop off).take n = (l.drop off).take n := by
  rw [List.drop_append_of_le_length (by omega)]
  rw [List.take_append_of_le_length (by simp; omega)]

/-- Indexing an appended singleton: the old elements, or the new one. -/
theorem getElem?_concat_cases {α : Type} {l : List α} {x : α} {j : Nat} {a : α}
    (h : (l ++ [x])[j]? = some a) : l[j]? = some a ∨ a = x := by
  rw [List.getElem?_append] at h
  split at h
  · exact .inl h
  · rcases hj : j - l.length with _ | k
    · rw [hj] at h
      simp at h
      exact .inr h.symm
    · rw [hj] at h
      simp at h

/-- A tracked handle resolves, through the interface, to the tracked value's
bytes and vtable. -/
theorem Tracks.resolves {A : Arenas} {h : Handle} {v : Value} (t : Tracks A h v) :
    Arenas.get A h v.bytes.length = some (v.bytes, v.vtable) := by
  obtain ⟨a, ha, -, hex, hvt⟩ := t
  simp [Arenas.get, ha, Arena.get, hex, hvt]

/-- `Arena::push` on a buffer whose free-slot list is empty takes the append
path: return the pre-append length as offset (when it fits the width) and
append the value's bytes. -/
theorem arena_push_noslots (wo : Nat) {a : Arena} (v : Value) (hsl : a.slots = []) :
    Arena.push wo a v =
      if a.bytes.length < 2 ^ wo then
        .ok (a.bytes.length, { a with bytes := a.bytes ++ v.bytes })
      else .error .offsetOverflow := by
  unfold Arena.push
  rw [hsl]
  rfl

/-- `Arenas::push` when a matching, not-full arena exists at position `i`. -/
theorem arenas_push_found {wi wo : Nat} {A : Arenas} {v : Value} {i : Nat}
    (hfi : A.val.findIdx?
      (fun arena => arena.vtable == extract_vtable_pointer v && arena.is_not_full) = some i) :
    Arenas.push wi wo A v =
      if i < 2 ^ wi then
        match Arena.push wo (A.val.getD i (Arena.new (extract_vtable_pointer v) v.align)) v with
        | .ok (offset, arena) => .ok (⟨i, offset⟩, ⟨A.val.set i arena⟩)
        | .error e => .error e
      else .error .indexOverflow := by
  unfold Arenas.push
  rw [hfi]

/-- `Arenas::push` when no matching, not-full arena exists: a fresh arena is
appended and receives the value. -/
theorem arenas_push_fresh {wi wo : Nat} {A : Arenas} {v : Value}
    (hfi : A.val.findIdx?
      (fun arena => arena.vtable == extract_vtable_pointer v && arena.is_not_full) = none) :
    Arenas.push wi wo A v =
      if A.val.length < 2 ^ wi then
        match Arena.push wo (Arena.new (extract_vtable_pointer v) v.align) v with
        | .ok (offset, arena) => .ok (⟨A.val.length, offset⟩, ⟨A.val ++ [arena]⟩)
        | .error e => .error e
      else .error .indexOverflow := by
  unfold Arenas.push
  rw [hfi]

/-- Inversion of a successful `Arenas::push` when no slot was ever freed:
either the value's bytes were appended to an existing arena of its shape that
was not full for the configured width, or a fresh arena was created holding
exactly the value's bytes. -/
theorem push_ok_inv {wi wo : Nat} {A : Arenas} {v : Value} {hdl : Handle} {A' : Arenas}
    (hns : NoSlots A) (h : Arenas.push wi wo A v = .ok (hdl, A')) :
    (∃ (i : Nat) (a : Arena), A.val[i]? = some a ∧ a.vtable = v.vtable ∧ a.slots = [] ∧
        a.bytes.length < 2 ^ wo ∧
        hdl = ⟨i, a.bytes.length⟩ ∧
        A'.val = A.val.set i { a with bytes := a.bytes ++ v.bytes }) ∨
    (hdl = ⟨A.val.length, 0⟩ ∧
        A'.val = A.val ++ [{ vtable := v.vtable, bytes := v.bytes, slots := [],
                             align := v.align }]) := by
  cases hfi : A.val.findIdx?
      (fun arena => arena.vtable == extract_vtable_pointer v && arena.is_not_full) with
  | some i =>
    obtain ⟨a, ha, hpa⟩ := findIdx?_found hfi
    have hvt : a.vtable = v.vtable := by
      have h1 := ((Bool.and_eq_true _ _).mp hpa).1
      simpa [extract_vtable_pointer] using h1
    have hsl : a.slots = [] := hns i a ha
    have hgd : A.val.getD i (Arena.new (extract_vtable_pointer v) v.align) = a := by
      rw [List.getD_eq_getElem?_getD, ha, Option.getD_some]
    rw [arenas_push_found hfi, hgd, arena_push_noslots wo v hsl] at h
    split at h
    · split at h
      · rename_i offset arena heq
        split at heq
        · rename_i hlt
          simp only [Except.ok.injEq, Prod.mk.injEq] at heq h
          obtain ⟨h3, h4⟩ := heq
          obtain ⟨h1, h2⟩ := h
          refine .inl ⟨i, a, ha, hvt, hsl, hlt, ?_, ?_⟩
          · rw [← h1, ← h3]
          · rw [← h2, ← h4]
        · simp at heq
      · rename_i e heq
        simp at h
    · simp at h
  | none =>
    rw [arenas_push_fresh hfi,
        arena_push_noslots wo v (show (Arena.new (extract_vtable_pointer v) v.align).slots = [] from rfl)] at h
    split at h
    · split at h
      · rename_i offset arena heq
        split at heq
        · simp only [Except.ok.injEq, Prod.mk.injEq] at heq h
          obtain ⟨h3, h4⟩ := heq
          obtain ⟨h1, h2⟩ := h
          refine .inr ⟨?_, ?_⟩
          · rw [← h1, ← h3]
            rfl
          · rw [← h2, ← h4]
            simp [Arena.new, extract_vtable_pointer]
        · simp at heq
      · rename_i e heq
        simp at h
    · simp at h

/-- A successful push into a never-removed-from container leaves every
free-slot list empty. -/
theorem push_preserves_noslots {wi wo : Nat} {A : Arenas} {v : Value} {hdl : Handle}
    {A' : Arenas} (hns : NoSlots A) (h : Arenas.push wi wo A v = .ok (hdl, A')) :
    NoSlots A' := by
  intro j b hb
  rcases push_ok_inv hns h with ⟨i, a, ha, -, hsl, -, -, hset⟩ | ⟨-, happ⟩
  · rw [hset] at hb
    by_cases hij : i = j
    · subst hij
      have hlt : i < A.val.length := (List.getElem?_eq_some.mp ha).1
      rw [List.getElem?_set_self hlt] at hb
      injection hb with hb
      rw [← hb]
      exact hsl
    · rw [List.getElem?_set_ne hij] at hb
      exact hns j b hb
  · rw [happ] at hb
    rcases getElem?_concat_cases hb with hb | hb
    · exact hns j b hb
    · rw [hb]
  -- (the fresh arena's free-slot list is empty by construction)

/-- The handle a successful push returns tracks the pushed value. -/
theorem push_tracks_new {wi wo : Nat} {A : Arenas} {v : Value} {hdl : Handle}
    {A' : Arenas} (hns : NoSlots A) (h : Arenas.push wi wo A v = .ok (hdl, A')) :
    Tracks A' hdl v := by
  rcases push_ok_inv hns h with ⟨i, a, ha, hvt, -, -, hhdl, hset⟩ | ⟨hhdl, happ⟩
  · have hlt : i < A.val.length := (List.getElem?_eq_some.mp ha).1
    refine ⟨{ a with bytes := a.bytes ++ v.bytes }, ?_, ?_, ?_, hvt⟩
    · rw [hhdl, hset]
      exact List.getElem?_set_self hlt
    · rw [hhdl]
      simp
    · rw [hhdl]
      simp [List.drop_left, List.take_length]
  · refine ⟨{ vtable := v.vtable, bytes := v.bytes, slots := [], align := v.align }, ?_, ?_, ?_, rfl⟩
    · rw [hhdl, happ]
      exact List.getElem?_concat_length _ _
    · rw [hhdl]
      simp
    · rw [hhdl]
      simp [List.take_length]

/-- A successful push leaves every already-tracked handle tracking its value:
existing buffers are only extended at their end, never overwritten or moved. -/
theorem push_preserves_tracks {wi wo : Nat} {A : Arenas} {v : Value} {hdl : Handle}
    {A' : Arenas} (hns : NoSlots A) (h : Arenas.push wi wo A v = .ok (hdl, A'))
    {h0 : Handle} {v0 : Value} (t : Tracks A h0 v0) : Tracks A' h0 v0 := by
  obtain ⟨a0, ha0, hbound, hex, hvt0⟩ := t
  rcases push_ok_inv hns h with ⟨i, a, ha, -, -, -, -, hset⟩ | ⟨-, happ⟩
  · by_cases hidx : i = h0.index
    · subst hidx
      have ha0a : a0 = a := by
        rw [ha] at ha0
        injection ha0 with hh
        exact hh.symm
      subst ha0a
      have hlt : h0.index < A.val.length := (List.getElem?_eq_some.mp ha).1
      refine ⟨{ a0 with bytes := a0.bytes ++ v.bytes }, ?_, ?_, ?_, hvt0⟩
      · rw [hset]
        exact List.getElem?_set_self hlt
      · simp
        omega
      · rw [extract_append hbound]
        exact hex
    · refine ⟨a0, ?_, hbound, hex, hvt0⟩
      rw [hset]
      rw [List.getElem?_set_ne hidx]
      exact ha0
  · refine ⟨a0, ?_, hbound, hex, hvt0⟩
    rw [happ, List.getElem?_append]
    rw [if_pos (List.getElem?_eq_some.mp ha0).1]
    exact ha0

/-- A successful push preserves `BufferFrom` for every arena: the pushed
value's bytes land, whole, at the end of a buffer whose vtable is the
value's. -/
theorem push_preserves_bufferFrom {wi wo : Nat} {A : Arenas} {v : Value} {hdl : Handle}
    {A' : Arenas} {P : Value → Prop} (hns : NoSlots A)
    (h : Arenas.push wi wo A v = .ok (hdl, A')) (hv : P v)
    (hA : ∀ (i : Nat) (a : Arena), A.val[i]? = some a → BufferFrom P a) :
    ∀ (i : Nat) (a : Arena), A'.val[i]? = some a → BufferFrom P a := by
  intro j b hb
  rcases push_ok_inv hns h with ⟨i, a, ha, hvt, -, -, -, hset⟩ | ⟨-, happ⟩
  · rw [hset] at hb
    by_cases hij : i = j
    · subst hij
      have hlt : i < A.val.length := (List.getElem?_eq_some.mp ha).1
      rw [List.getElem?_set_self hlt] at hb
      injection hb with hb
      obtain ⟨ws, hws, hbytes⟩ := hA i a ha
      refine ⟨ws ++ [v], ?_, ?_⟩
      · intro w hw
        rcases List.mem_append.mp hw with hw | hw
        · have := hws w hw
          rw [← hb]
          exact this
      -- the new value satisfies `P` and carries the arena's vtable
        · rw [List.mem_singleton.mp hw, ← hb]
          exact ⟨hv, hvt.symm⟩
      · rw [← hb]
        simp only [List.map_append, List.flatten_append]
        rw [← hbytes]
        simp
    · rw [List.getElem?_set_ne hij] at hb
      exact hA j b hb
  · rw [happ] at hb
    rcases getElem?_concat_cases hb with hb | hb
    · exact hA j b hb
    · refine ⟨[v], ?_, ?_⟩
      · intro w hw
        rw [List.mem_singleton.mp hw, hb]
        exact ⟨hv, rfl⟩
      · rw [hb]
        simp

/-- Induction along a run of pushes from any never-removed-from state:
free-slot lists stay empty, tracked handles stay tracked, and each issued
handle tracks the value it was issued for. -/
theorem pushAll_ok_inv {wi wo : Nat} :
    ∀ {vs : List Value} {A A' : Arenas} {hs : List Handle},
    NoSlots A → Arenas.pushAll wi wo A vs = .ok (A', hs) →
    NoSlots A' ∧ (∀ h v, Tracks A h v → Tracks A' h v) ∧
    hs.length = vs.length ∧
    (∀ (k : Nat) (v : Value) (hdl : Handle),
      vs[k]? = some v → hs[k]? = some hdl → Tracks A' hdl v) := by
  intro vs
  induction vs with
  | nil =>
    intro A A' hs hns h
    simp only [Arenas.pushAll, Except.ok.injEq, Prod.mk.injEq] at h
    obtain ⟨rfl, rfl⟩ := h
    refine ⟨hns, fun _ _ t => t, rfl, ?_⟩
    intro k v hdl hv hh
    simp at hv
  | cons v vs ih =>
    intro A A' hs hns h
    rw [Arenas.pushAll] at h
    cases hp : Arenas.push wi wo A v with
    | error e =>
      rw [hp] at h
      simp at h
    | ok p =>
      obtain ⟨hdl1, A1⟩ := p
      rw [hp] at h
      simp only [] at h
      cases hrest : Arenas.pushAll wi wo A1 vs with
      | error e =>
        rw [hrest] at h
        simp at h
      | ok q =>
        obtain ⟨A2, hs2⟩ := q
        rw [hrest] at h
        simp only [Except.ok.injEq, Prod.mk.injEq] at h
        obtain ⟨h1, h2⟩ := h
        subst h1
        subst h2
        have hns1 := push_preserves_noslots hns hp
        obtain ⟨hns2, hpres, hlen, htr⟩ := ih hns1 hrest
        refine ⟨hns2, ?_, by simp [hlen], ?_⟩
        · intro h0 v0 t
          exact hpres _ _ (push_preserves_tracks hns hp t)
        · intro k v' hdl hv hh
          cases k with
          | zero =>
            simp only [List.getElem?_cons_zero, Option.some.injEq] at hv hh
            subst hv
            subst hh
            exact hpres _ _ (push_tracks_new hns hp)
          | succ k =>
            simp only [List.getElem?_cons_succ] at hv hh
            exact htr k _ _ hv hh

/-- Induction along a run of pushes for buffer provenance: every arena's
bytes remain the concatenation of whole values of that arena's own shape. -/
theorem pushAll_bufferFrom {wi wo : Nat} {P : Value → Prop} :
    ∀ {vs : List Value} {A A' : Arenas} {hs : List Handle},
    NoSlots A → (∀ v ∈ vs, P v) →
    (∀ (i : Nat) (a : Arena), A.val[i]? = some a → BufferFrom P a) →
    Arenas.pushAll wi wo A vs = .ok (A', hs) →
    ∀ (i : Nat) (a : Arena), A'.val[i]? = some a → BufferFrom P a := by
  intro vs
  induction vs with
  | nil =>
    intro A A' hs hns hP hA h
    simp only [Arenas.pushAll, Except.ok.injEq, Prod.mk.injEq] at h
    obtain ⟨rfl, -⟩ := h
    exact hA
  | cons v vs ih =>
    intro A A' hs hns hP hA h
    rw [Arenas.pushAll] at h
    cases hp : Arenas.push wi wo A v with
    | error e =>
      rw [hp] at h
      simp at h
    | ok p =>
      obtain ⟨hdl1, A1⟩ := p
      rw [hp] at h
      simp only [] at h
      cases hrest : Arenas.pushAll wi wo A1 vs with
      | error e =>
        rw [hrest] at h
        simp at h
      | ok q =>
        obtain ⟨A2, hs2⟩ := q
        rw [hrest] at h
        simp only [Except.ok.injEq, Prod.mk.injEq] at h
        obtain ⟨h1, -⟩ := h
        subst h1
        have hns1 := push_preserves_noslots hns hp
        have hA1 := push_preserves_bufferFrom hns hp (hP v (by simp)) hA
        exact ih hns1 (fun w hw => hP w (by simp [hw])) hA1 hrest

/-- `Arena::push` never raises the arena-count panic: that panic site lives
in `Arenas::push` alone. -/
theorem arena_push_no_index_panic (wo : Nat) (a : Arena) (v : Value) :
    Arena.push wo a v ≠ .error .indexOverflow := by
  intro h
  unfold Arena.push at h
  split at h
  · split at h <;> simp at h
  · split at h <;> simp at h

/-- If `Arena::push` hits the offset-conversion panic, the buffer's byte
length already failed to fit the configured offset width. -/
theorem arena_push_offset_panic_imp {wo : Nat} {a : Arena} {v : Value}
    (h : Arena.push wo a v = .error .offsetOverflow) : 2 ^ wo ≤ a.bytes.length := by
  unfold Arena.push at h
  split at h
  · split at h <;> simp at h
  · split at h
    · simp at h
    · rename_i hge
      omega

/-! ## Claims -/

set_option maxRecDepth 8000

/-- C9: handles are ordered lexicographically by (index, offset): the derived
comparator reports `lt` exactly when the index is smaller, or the indices tie
and the offset is smaller; it reports `eq` exactly when both fields agree. -/
theorem handle_cmp_lexicographic (h1 h2 : Handle) :
    (Handle.cmp h1 h2 = .lt ↔
      h1.index < h2.index ∨ (h1.index = h2.index ∧ h1.offset < h2.offset)) ∧
    (Handle.cmp h1 h2 = .eq ↔ h1 = h2) := by
  obtain ⟨i1, o1⟩ := h1
  obtain ⟨i2, o2⟩ := h2
  simp only [Handle.cmp, Handle.mk.injEq]
  rcases hc : compare i1 i2 with _ | _ | _
  · have hi := Nat.compare_eq_lt.mp hc
    simp
    omega
  · have hi := Nat.compare_eq_eq.mp hc
    simp [Nat.compare_eq_lt, Nat.compare_eq_eq]
    omega
  · have hi := Nat.compare_eq_gt.mp hc
    simp
    omega

/-- C6: `Clone` is a deep, verbatim copy: the clone equals the original state
value — the whole arena list is copied, each arena copying its byte buffer
and free-slot list element-wise and its vtable pointer as an opaque value —
so in this state-passing semantics a later `push`/`remove` on the original
yields a new state, and everything previously resolvable through the clone
still resolves to the same bytes and vtable. -/
theorem clone_is_deep_copy (A : Arenas) :
    Arenas.clone A = A ∧
    ∀ (h : Handle) (sz : Nat), Arenas.get (Arenas.clone A) h sz = Arenas.get A h sz := by
  have ha : ∀ a : Arena, Arena.clone a = a := by
    intro a
    simp [Arena.clone]
  have h1 : Arenas.clone A = A := by
    obtain ⟨l⟩ := A
    simp [Arenas.clone, show Arena.clone = id from funext ha]
  exact ⟨h1, fun h sz => by rw [h1]⟩

/-- C7: `remove` appends the handle's offset to the owning arena's free-slot
list and changes nothing else — that arena's bytes, vtable and alignment, and
all other arenas, are untouched (no destructor is modelled because the source
runs none) — and a second `remove` of the same handle succeeds and appends
the same offset again. -/
theorem remove_appends_offset_only (A : Arenas) (h : Handle) (a : Arena)
    (ha : A.val[h.index]? = some a) :
    Arenas.remove A h =
      some ⟨A.val.set h.index { a with slots := a.slots ++ [h.offset] }⟩ ∧
    (Arenas.remove A h).bind (fun A1 => Arenas.remove A1 h) =
      some ⟨A.val.set h.index { a with slots := (a.slots ++ [h.offset]) ++ [h.offset] }⟩ := by
  have hlt : h.index < A.val.length := (List.getElem?_eq_some.mp ha).1
  have h1 : Arenas.remove A h =
      some ⟨A.val.set h.index { a with slots := a.slots ++ [h.offset] }⟩ := by
    simp [Arenas.remove, ha, Arena.remove]
  refine ⟨h1, ?_⟩
  rw [h1]
  have ha2 : (A.val.set h.index { a with slots := a.slots ++ [h.offset] })[h.index]? =
      some { a with slots := a.slots ++ [h.offset] } := List.getElem?_set_self hlt
  simp [Arenas.remove, ha2, Arena.remove, List.set_set]

/-- C7 witness: removing handle (0, 5) from a one-arena container, twice. -/
theorem remove_appends_offset_only_witness :
    Arenas.remove ⟨[⟨7, [1, 2], [], 2⟩]⟩ ⟨0, 5⟩ = some ⟨[⟨7, [1, 2], [5], 2⟩]⟩ ∧
    (Arenas.remove ⟨[⟨7, [1, 2], [], 2⟩]⟩ ⟨0, 5⟩).bind
        (fun A1 => Arenas.remove A1 ⟨0, 5⟩) =
      some ⟨[⟨7, [1, 2], [5, 5], 2⟩]⟩ :=
  remove_appends_offset_only ⟨[⟨7, [1, 2], [], 2⟩]⟩ ⟨0, 5⟩ ⟨7, [1, 2], [], 2⟩ rfl

/-- C2 (code evaluation at the failing input): for a shape whose size (6
bytes) differs from its alignment (2), push–remove–push of the same shape
panics in the slot-reuse copy (`copy_from_slice` length mismatch) instead of
overwriting the reused slot with the type's size in bytes: the source copies
`align_of::<T>()` bytes where its comment and the spec intend
`size_of::<T>()`. -/
theorem slot_reuse_copies_align_not_size :
    Arenas.push 32 32 ⟨[]⟩ ⟨7, 2, [1, 2, 3, 4, 5, 6]⟩ =
      .ok (⟨0, 0⟩, ⟨[⟨7, [1, 2, 3, 4, 5, 6], [], 2⟩]⟩) ∧
    Arenas.remove ⟨[⟨7, [1, 2, 3, 4, 5, 6], [], 2⟩]⟩ ⟨0, 0⟩ =
      some ⟨[⟨7, [1, 2, 3, 4, 5, 6], [0], 2⟩]⟩ ∧
    Arenas.push 32 32 ⟨[⟨7, [1, 2, 3, 4, 5, 6], [0], 2⟩]⟩ ⟨7, 2, [9, 9, 9, 9, 9, 9]⟩ =
      .error .copyFault :=
  ⟨rfl, rfl, rfl⟩

/-- C3 (code evaluation at the failing input): at offset width 8 a buffer of
256 bytes has reached the configured capacity, yet `is_not_full` — hard-coded
to `u32` — still reports it not full, and a container push routed to it
panics at the offset conversion instead of opening a new buffer. -/
theorem is_not_full_hard_codes_u32 :
    Arena.is_not_full ⟨7, List.replicate 256 0, [], 4⟩ = true ∧
    2 ^ 8 ≤ (Arena.mk 7 (List.replicate 256 0) [] 4).bytes.length ∧
    Arenas.push 32 8 ⟨[⟨7, List.replicate 256 0, [], 4⟩]⟩ ⟨7, 4, [1, 2, 3, 4]⟩ =
      .error .offsetOverflow :=
  ⟨rfl, by simp, rfl⟩

/-- C4 (counterexample): at offset width 8, a buffer of 252 bytes receives a
4-byte value: the resulting byte length 256 does not fit the offset width,
yet the push completes — the source converts only the pre-append length. -/
theorem append_over_capacity_completes :
    2 ^ 8 ≤ (List.replicate 252 (0 : Nat)).length + 4 ∧
    Arena.push 8 ⟨7, List.replicate 252 0, [], 4⟩ ⟨7, 4, [1, 2, 3, 4]⟩ =
      .ok (252, ⟨7, List.replicate 252 0 ++ [1, 2, 3, 4], [], 4⟩) :=
  ⟨by simp, rfl⟩

/-- C4 (amended): on the append path (empty free-slot list) `Arena::push`
fails fatally iff the byte length before the append — the offset it would
return — does not fit the configured offset width; otherwise it does not
abort on this condition. -/
theorem append_aborts_iff_pre_length_overflows (wo : Nat) (a : Arena) (v : Value)
    (hsl : a.slots = []) :
    Arena.push wo a v = .error .offsetOverflow ↔ 2 ^ wo ≤ a.bytes.length := by
  rw [arena_push_noslots wo v hsl]
  split
  · rename_i hlt
    simp
    omega
  · rename_i hge
    simp
    omega

/-- C4 witness: at offset width 8 and pre-append length 256, the push aborts
with the offset-conversion panic. -/
theorem append_aborts_witness :
    Arena.push 8 ⟨7, List.replicate 256 0, [], 4⟩ ⟨7, 4, [1, 2, 3, 4]⟩ =
      .error .offsetOverflow :=
  (append_aborts_iff_pre_length_overflows 8 ⟨7, List.replicate 256 0, [], 4⟩
    ⟨7, 4, [1, 2, 3, 4]⟩ rfl).mpr (by simp)

/-- C8 (counterexample): a container-level push fails fatally (in the
slot-reuse copy) although the arena count — one — is far below the index
width's range; the failing state is reached from an empty container by one
push and one remove of a shape whose size differs from its alignment. -/
theorem push_panic_within_index_range :
    Arenas.push 32 32 ⟨[]⟩ ⟨7, 2, [1, 2, 3, 4, 5, 6]⟩ =
      .ok (⟨0, 0⟩, ⟨[⟨7, [1, 2, 3, 4, 5, 6], [], 2⟩]⟩) ∧
    Arenas.remove ⟨[⟨7, [1, 2, 3, 4, 5, 6], [], 2⟩]⟩ ⟨0, 0⟩ =
      some ⟨[⟨7, [1, 2, 3, 4, 5, 6], [0], 2⟩]⟩ ∧
    (⟨[⟨7, [1, 2, 3, 4, 5, 6], [0], 2⟩]⟩ : Arenas).val.length < 2 ^ 32 ∧
    Arenas.push 32 32 ⟨[⟨7, [1, 2, 3, 4, 5, 6], [0], 2⟩]⟩ ⟨7, 2, [8, 8, 8, 8, 8, 8]⟩ =
      .error .copyFault :=
  ⟨rfl, rfl, by norm_num, rfl⟩

/-- C8 (amended): `Arenas::push` raises the arena-count panic exactly when
the index of the arena chosen or created for the value cannot be represented
in the configured index width; the delegated buffer insertion has its own,
distinct fatal conditions. -/
theorem push_index_panic_iff (wi wo : Nat) (A : Arenas) (v : Value) :
    Arenas.push wi wo A v = .error .indexOverflow ↔ 2 ^ wi ≤ A.chosenIndex v := by
  unfold Arenas.chosenIndex
  cases hfi : A.val.findIdx?
      (fun arena => arena.vtable == extract_vtable_pointer v && arena.is_not_full) with
  | some i =>
    rw [arenas_push_found hfi]
    simp only [hfi]
    split
    · rename_i hlt
      constructor
      · intro h
        split at h
        · rename_i offset arena heq
          simp at h
        · rename_i e heq
          injection h with h
          subst h
          exact absurd heq (arena_push_no_index_panic wo _ v)
      · intro hge
        exact absurd hge (by omega)
    · rename_i hge
      simp
      omega
  | none =>
    rw [arenas_push_fresh hfi]
    simp only [hfi]
    split
    · rename_i hlt
      constructor
      · intro h
        split at h
        · rename_i offset arena heq
          simp at h
        · rename_i e heq
          injection h with h
          subst h
          exact absurd heq (arena_push_no_index_panic wo _ v)
      · intro hge
        exact absurd hge (by omega)
    · rename_i hge
      simp
      omega

/-- At widths 32/32 a container push never reports the offset-conversion
panic: the chosen arena passed `is_not_full` (length below `2 ^ 32`) or is
fresh, and at width 32 that is exactly the bound the conversion checks. -/
theorem push_32_32_no_offset_panic (A : Arenas) (v : Value) :
    Arenas.push 32 32 A v ≠ .error .offsetOverflow := by
  intro h
  cases hfi : A.val.findIdx?
      (fun arena => arena.vtable == extract_vtable_pointer v && arena.is_not_full) with
  | some i =>
    obtain ⟨a, ha, hpa⟩ := findIdx?_found hfi
    have hnf : a.is_not_full = true := ((Bool.and_eq_true _ _).mp hpa).2
    have hlen : a.bytes.length < 2 ^ 32 := by
      simpa [Arena.is_not_full] using hnf
    have hgd : A.val.getD i (Arena.new (extract_vtable_pointer v) v.align) = a := by
      rw [List.getD_eq_getElem?_getD, ha, Option.getD_some]
    rw [arenas_push_found hfi, hgd] at h
    split at h
    · split at h
      · rename_i offset arena heq
        simp at h
      · rename_i e heq
        injection h with h
        subst h
        exact absurd (arena_push_offset_panic_imp heq) (by omega)
    · simp at h
  | none =>
    rw [arenas_push_fresh hfi] at h
    split at h
    · split at h
      · rename_i offset arena heq
        simp at h
      · rename_i e heq
        injection h with h
        subst h
        have := arena_push_offset_panic_imp heq
        simp [Arena.new] at this
    · simp at h

/-- C10: in the default 32/32 instantiation the fatal offset-conversion
branch of the buffer append path is unreachable through `Arenas::push`: every
container push either succeeds or fails at one of the two other panic sites,
because the container only delegates to an arena passing `is_not_full` (whose
byte length converts to `u32`) or to a fresh empty arena, the length is
unchanged between that check and the conversion, and at width 32 the two
bounds coincide, so converting the pre-append length always succeeds. -/
theorem default_width_offset_panic_unreachable (A : Arenas) (v : Value) :
    (∃ r, Arenas.push 32 32 A v = .ok r) ∨
    Arenas.push 32 32 A v = .error .indexOverflow ∨
    Arenas.push 32 32 A v = .error .copyFault := by
  cases hr : Arenas.push 32 32 A v with
  | ok r => exact .inl ⟨r, rfl⟩
  | error e =>
    cases e with
    | indexOverflow => exact .inr (.inl rfl)
    | offsetOverflow => exact absurd hr (push_32_32_no_offset_panic A v)
    | copyFault => exact .inr (.inr rfl)

/-- C1: pushing any sequence of values of arbitrary shapes (no removes) into
an empty container yields handles that all resolve, at the end of the run, to
exactly the bytes and vtable of the value each was issued for: growth of the
backing buffers never disturbs a previously issued handle. -/
theorem push_round_trip_stable (wi wo : Nat) (vs : List Value) (A : Arenas)
    (hs : List Handle) (hrun : Arenas.pushAll wi wo ⟨[]⟩ vs = .ok (A, hs)) :
    hs.length = vs.length ∧
    ∀ (k : Nat) (v : Value) (hdl : Handle), vs[k]? = some v → hs[k]? = some hdl →
      Arenas.get A hdl v.bytes.length = some (v.bytes, v.vtable) := by
  have hns : NoSlots (⟨[]⟩ : Arenas) := by
    intro i a ha
    simp at ha
  obtain ⟨-, -, hlen, htr⟩ := pushAll_ok_inv hns hrun
  exact ⟨hlen, fun k v hdl hv hh => (htr k v hdl hv hh).resolves⟩

/-- C1 witness: a concrete three-push run — two shapes, the first shape's
buffer grown by a second value — with the third handle resolving to exactly
the value pushed for it. -/
theorem push_round_trip_stable_witness :
    Arenas.get ⟨[⟨7, [1, 2, 3, 4, 8, 8, 8, 8], [], 4⟩, ⟨9, [5, 6], [], 2⟩]⟩ ⟨0, 4⟩ 4 =
      some ([8, 8, 8, 8], 7) :=
  (push_round_trip_stable 32 32
      [⟨7, 4, [1, 2, 3, 4]⟩, ⟨9, 2, [5, 6]⟩, ⟨7, 4, [8, 8, 8, 8]⟩]
      ⟨[⟨7, [1, 2, 3, 4, 8, 8, 8, 8], [], 4⟩, ⟨9, [5, 6], [], 2⟩]⟩
      [⟨0, 0⟩, ⟨1, 0⟩, ⟨0, 4⟩] rfl).2 2 ⟨7, 4, [8, 8, 8, 8]⟩ ⟨0, 4⟩ rfl rfl

/-- C5: after any interleaving of pushes (no removes) from an empty
container, every arena's byte buffer is exactly a concatenation of whole byte
images of pushed values whose vtable is that arena's own — a buffer created
for one shape never observes another shape's bytes, because each arena's
vtable is fixed at creation and insertion is routed only to a matching
arena. -/
theorem multi_shape_isolation (wi wo : Nat) (vs : List Value) (A : Arenas)
    (hs : List Handle) (hrun : Arenas.pushAll wi wo ⟨[]⟩ vs = .ok (A, hs)) :
    ∀ (i : Nat) (a : Arena), A.val[i]? = some a → BufferFrom (fun w => w ∈ vs) a := by
  have hns : NoSlots (⟨[]⟩ : Arenas) := by
    intro i a ha
    simp at ha
  refine pushAll_bufferFrom hns (fun v hv => hv) ?_ hrun
  intro i a ha
  simp at ha

/-- C5 witness: in the concrete two-shape run, the first arena's buffer is a
concatenation of values pushed with its own vtable. -/
theorem multi_shape_isolation_witness :
    BufferFrom
      (fun w => w ∈ [(⟨7, 4, [1, 2, 3, 4]⟩ : Value), ⟨9, 2, [5, 6]⟩, ⟨7, 4, [8, 8, 8, 8]⟩])
      ⟨7, [1, 2, 3, 4, 8, 8, 8, 8], [], 4⟩ :=
  multi_shape_isolation 32 32
    [⟨7, 4, [1, 2, 3, 4]⟩, ⟨9, 2, [5, 6]⟩, ⟨7, 4, [8, 8, 8, 8]⟩]
    ⟨[⟨7, [1, 2, 3, 4, 8, 8, 8, 8], [], 4⟩, ⟨9, [5, 6], [], 2⟩]⟩
    [⟨0, 0⟩, ⟨1, 0⟩, ⟨0, 4⟩] rfl 0 ⟨7, [1, 2, 3, 4, 8, 8, 8, 8], [], 4⟩ rfl

end Hato
